import Mathlib

/-!
Verification of the qwen-reverse FastAPI bridge (`qwen_reverse_fastapi.py`).

Texts are modelled as `List Char` (Python `str`).  The parts of the program
relevant to the claims are embedded shallowly:

* `ChatHistoryManager.normalize_text`, `remove_tool`, the session table and
  its operations (`update_session`, `get_session_by_last_content`) and
  `QwenClient.find_matching_session`;
* the streaming generator of `QwenClient.chat_completions` (the per-line
  state machine over upstream SSE events, its emitted chunks, its error
  path and its `finally` session update) and the non-streaming aggregation
  branch;
* the upload-strategy selection and fallback control flow of the
  `upload_file` and `upload_image_and_chat` endpoints.
-/

namespace QwenReverse

/-- Python `str` is modelled as a list of characters. -/
abbrev Str := List Char

/-- Whitespace as matched by Python's `\s` / `str.strip()` on `str`
(ASCII whitespace plus the Unicode space characters). -/
def isPySpace (c : Char) : Bool :=
  let n := c.toNat
  n = 0x20 || n = 0x9 || n = 0xa || n = 0xd || n = 0xb || n = 0xc ||
  n = 0x1c || n = 0x1d || n = 0x1e || n = 0x1f || n = 0x85 || n = 0xa0 ||
  n = 0x1680 || (0x2000 ≤ n && n ≤ 0x200a) || n = 0x2028 || n = 0x2029 ||
  n = 0x202f || n = 0x205f || n = 0x3000

/-- The emoji ranges stripped by `normalize_text`
(`[\U0001F600-\U0001F64F\U0001F300-\U0001F5FF\U0001F680-\U0001F6FF\U0001F1E0-\U0001F1FF✨🌟]`). -/
def isStrippedEmoji (c : Char) : Bool :=
  let n := c.toNat
  (0x1F600 ≤ n && n ≤ 0x1F64F) || (0x1F300 ≤ n && n ≤ 0x1F5FF) ||
  (0x1F680 ≤ n && n ≤ 0x1F6FF) || (0x1F1E0 ≤ n && n ≤ 0x1F1FF) ||
  n = 0x2728 || n = 0x1F31F

/-- The markdown characters stripped by `normalize_text`: `*`, `_`,
backquote, `~`. -/
def isMdChar (c : Char) : Bool :=
  c = '*' || c = '_' || c = '`' || c = '~'

/-- Does the text start with `amp;` (the tail of an `&amp;` entity)? -/
def ampHead : Str → Bool
  | a :: m :: p :: s :: _ => a = 'a' && m = 'm' && p = 'p' && s = ';'
  | _ => false

/-- Scanner for `unescape`; the counter skips over the tail of a
recognised entity. -/
def unescGo : Nat → Str → Str
  | _, [] => []
  | n+1, _ :: rest => unescGo n rest
  | 0, c :: rest =>
    if c = '&' && ampHead rest then '&' :: unescGo 4 rest
    else c :: unescGo 0 rest

/-- Model of Python's `html.unescape`, restricted to the `&amp;` entity.
On entity-free text (no `&` character) it behaves — exactly like the real
function — as the identity, which is the only behaviour the development
relies on. -/
def unescape (l : Str) : Str := unescGo 0 l

/-- `re.sub(r'\s+', ' ', ·)`: replace every maximal whitespace run by a
single space.  The flag records whether we are inside a whitespace run. -/
def collapseGo : Bool → Str → Str
  | _, [] => []
  | inRun, c :: rest =>
    if isPySpace c then
      if inRun then collapseGo true rest
      else ' ' :: collapseGo true rest
    else c :: collapseGo false rest

/-- `re.sub(r'\s+', ' ', s)`. -/
def collapseWs (l : Str) : Str := collapseGo false l

/-- Python `str.strip()`: drop leading and trailing whitespace. -/
def stripChars (l : Str) : Str :=
  ((l.dropWhile isPySpace).reverse.dropWhile isPySpace).reverse

/-- `ChatHistoryManager.normalize_text`: HTML-unescape, strip and collapse
whitespace, drop markdown emphasis characters, drop the emoji ranges.
An empty (falsy) input returns `""` immediately. -/
def normalize_text (t : Str) : Str :=
  if t = [] then []
  else
    ((collapseGo false (stripChars (unescape t))).filter
      (fun c => !isMdChar c)).filter (fun c => !isStrippedEmoji c)

/-- Normal form for whitespace: every whitespace character is a single
space and no two adjacent characters are both whitespace (the invariant
of `collapseWs` output). -/
def wsCollapsed : Str → Bool
  | [] => true
  | [c] => !isPySpace c || c == ' '
  | a :: b :: rest => (!isPySpace a || (a == ' ' && !isPySpace b)) && wsCollapsed (b :: rest)

/-- The literal `</tool_use>`. -/
def closeTag : Str := "</tool_use>".data

/-- The literal `<tool_use>`. -/
def openTag : Str := "<tool_use>".data

/-- Helper for `remove_tool`: scan for the first `</tool_use>` and return
the remainder after it (`none` when there is no closing tag), matching the
non-greedy `.*?` of the regex. -/
def dropClose : Str → Option Str
  | [] => none
  | c :: rest =>
    if List.take 11 (c :: rest) = closeTag then some (rest.drop 10)
    else dropClose rest

theorem dropClose_length : ∀ l r, dropClose l = some r → r.length < l.length := by
  intro l
  induction l with
  | nil => intro r h; simp [dropClose] at h
  | cons c rest ih =>
    intro r h
    rw [dropClose] at h
    split at h
    · cases h
      simp only [List.length_cons, List.length_drop]
      omega
    · have := ih r h
      simp only [List.length_cons]
      omega

/-- `remove_tool`: `re.sub(r'<tool_use>.*?</tool_use>', '', text, flags=re.DOTALL)`.
Scanning left to right, each `<tool_use>` with a following (nearest)
`</tool_use>` is removed together with the enclosed span; an opening tag
with no closing tag after it does not match, so its first character is
kept and scanning resumes at the next character. -/
def remove_tool : Str → Str
  | [] => []
  | c :: rest =>
    if List.take 10 (c :: rest) = openTag then
      match h : dropClose (rest.drop 9) with
      | some rem => remove_tool rem
      | none => c :: remove_tool rest
    else c :: remove_tool rest
termination_by l => l.length
decreasing_by
  · have := dropClose_length _ _ h
    simp only [List.length_cons, List.length_drop] at *
    omega
  · simp
  · simp

example : normalize_text "a  b".data = "a b".data := by decide
example : normalize_text "  x *y* z ".data = "x y z".data := by decide
example : unescape "&amp;amp;".data = "&amp;".data := by decide

/-- A row of the `chat_sessions` table (`chat_id` is the primary key;
`last_assistant_content` is the nullable column filtered by
`get_session_by_last_content`). -/
structure SessionRecord where
  chat_id : Str
  title : Str
  created_at : Nat
  updated_at : Nat
  chat_type : Str
  current_response_id : Str
  last_assistant_content : Option Str
deriving DecidableEq

/-- The table is modelled as a list of rows in scan order. -/
abbrev SessionStore := List SessionRecord

/-- `ChatHistoryManager.update_session`: `INSERT OR REPLACE` keyed on
`chat_id` (the conflicting row is deleted and the new row inserted); the
stored `last_assistant_content` is `remove_tool(last_assistant_content)`. -/
def update_session (store : SessionStore) (chat_id title : Str)
    (created_at updated_at : Nat) (chat_type : Str)
    (current_response_id : Str) (last_assistant_content : Str) : SessionStore :=
  store.filter (fun r => !(r.chat_id = chat_id : Bool)) ++
    [{ chat_id := chat_id, title := title, created_at := created_at,
       updated_at := updated_at, chat_type := chat_type,
       current_response_id := current_response_id,
       last_assistant_content := some (remove_tool last_assistant_content) }]

/-- `ChatHistoryManager.delete_session`. -/
def delete_session (store : SessionStore) (chat_id : Str) : SessionStore :=
  store.filter (fun r => !(r.chat_id = chat_id : Bool))

/-- `ChatHistoryManager.clear_all_sessions`. -/
def clear_all_sessions (_store : SessionStore) : SessionStore := []

/-- `ChatHistoryManager.get_session_by_last_content`: normalize the query,
scan the rows whose `last_assistant_content` is non-NULL in order, and
return the first row whose normalized stored text equals the normalized
query (the Python function returns that row's `chat_id` and
`current_response_id`). -/
def get_session_by_last_content (store : SessionStore) (content : Str) :
    Option SessionRecord :=
  let normalized := normalize_text content
  (store.filter (fun r => r.last_assistant_content.isSome)).find?
    (fun r => normalize_text (r.last_assistant_content.getD []) = normalized)

/-- One client message (`role`, and `content` defaulting to `""` when the
key is missing). -/
structure Msg where
  role : Str
  content : Str
deriving DecidableEq

/-- `QwenClient.find_matching_session`: scan the messages backwards for the
most recent assistant message; none, or one with empty content, means
"start new" (`none`); otherwise look the content up in the store. -/
def find_matching_session (store : SessionStore) (messages : List Msg) :
    Option SessionRecord :=
  match messages.reverse.find? (fun m => m.role = "assistant".data) with
  | none => none
  | some m =>
    if m.content = [] then none
    else get_session_by_last_content store m.content

/-- The `delta` object of an upstream event's first choice.  A field that
is absent from the JSON is `none`; `content` is read with default `""`. -/
structure Delta where
  phase : Option Str
  status : Option Str
  content : Str
  finish_reason : Option Str
deriving DecidableEq

/-- The `usage` object of an upstream event (`input_tokens`,
`output_tokens`, `total_tokens`, each read with default `0`). -/
structure Usage where
  input_tokens : Nat
  output_tokens : Nat
  total_tokens : Nat
deriving DecidableEq

/-- A parsed upstream JSON event: `response_created` is
`data["response.created"].get("response_id")` when the
`"response.created"` key is present; `delta` is the first choice's delta
when `"choices"` is a non-empty list; `usage` is the `"usage"` object when
present. -/
structure UpEvent where
  response_created : Option (Option Str)
  delta : Option Delta
  usage : Option Usage
deriving DecidableEq

/-- One line of the upstream SSE body: the `[DONE]` sentinel, a parseable
`data: ` line, an unparseable `data: ` line (`json.JSONDecodeError`), or a
line without the `data: ` prefix. -/
inductive Line
  | done
  | data (e : UpEvent)
  | malformed
  | other
deriving DecidableEq

/-- The local state of the streaming generator in
`QwenClient.chat_completions`. -/
structure GenState where
  finish_reason : Str
  reasoning_text : Str
  assistant_content : Str
  has_sent_content : Bool
  current_response_id : Option Str
deriving DecidableEq

/-- Initial generator state (`finish_reason = "stop"`, empty buffers). -/
def initState : GenState :=
  { finish_reason := "stop".data, reasoning_text := [],
    assistant_content := [], has_sent_content := false,
    current_response_id := none }

/-- An item sent to the client: a chunk (whose delta carries an optional
`content`, an optional `reasoning_content`, and the chunk-level
`finish_reason`), or the literal `data: [DONE]` end marker. -/
inductive OutItem
  | chunk (content : Option Str) (reasoning : Option Str) (finish : Option Str)
  | doneMark
deriving DecidableEq

/-- Processing of one parsed event inside the streaming loop: capture
`response_id` from `response.created`; then, when choices are present,
run the think branch, the answer/compatibility branch (emitting one chunk,
with the reasoning buffer attached and cleared if non-empty), and the
finished-status capture. -/
def stepEvent (s : GenState) (e : UpEvent) : GenState × List OutItem :=
  let s := match e.response_created with
    | some rid => { s with current_response_id := rid }
    | none => s
  match e.delta with
  | none => (s, [])
  | some d =>
    let (s, out) :=
      if d.phase = some "think".data then
        (if d.status ≠ some "finished".data then
          { s with reasoning_text := s.reasoning_text ++ d.content }
         else s, [])
      else if d.phase = some "answer".data ∨ (d.phase = none ∧ d.content ≠ []) then
        let s := { s with has_sent_content := true,
                          assistant_content := s.assistant_content ++ d.content }
        let att := if s.reasoning_text ≠ [] then some s.reasoning_text else none
        let s := if s.reasoning_text ≠ [] then { s with reasoning_text := [] } else s
        (s, [OutItem.chunk (some d.content) att none])
      else (s, [])
    let s := if d.status = some "finished".data then
        { s with finish_reason := d.finish_reason.getD "stop".data }
      else s
    (s, out)

/-- The streaming loop over the SSE lines: lines without the `data: `
prefix and unparseable lines are skipped; `[DONE]` emits the final chunk
(empty delta, captured `finish_reason`) plus the end marker and breaks
(the returned flag); parsed events go through `stepEvent`. -/
def runLines (s : GenState) : List Line → GenState × List OutItem × Bool
  | [] => (s, [], false)
  | l :: rest =>
    match l with
    | .done =>
      (s, [OutItem.chunk none none (some s.finish_reason), OutItem.doneMark], true)
    | .data e =>
      let p := stepEvent s e
      let q := runLines p.1 rest
      (q.1, p.2 ++ q.2.1, q.2.2)
    | .malformed => runLines s rest
    | .other => runLines s rest

/-- How the upstream transport terminates after delivering its lines:
normally, or with a `requests.exceptions.RequestException` mid-stream. -/
inductive StreamEnd
  | ok
  | err (msg : Str)

/-- The error chunk emitted by the `except` branch of the generator. -/
def errorChunk (msg : Str) : OutItem :=
  OutItem.chunk (some ("Error during streaming: ".data ++ msg)) none (some "error".data)

/-- The whole streaming generator for one exchange: run the state machine
over the delivered lines (stopping at `[DONE]`), append the error chunk
when the transport failed before a `[DONE]` was seen, and compute the
`finally`-block session update, guarded by Python truthiness
(`if assistant_content and current_response_id`): it is performed only
when the assistant buffer is non-empty and the captured `response_id` is
neither missing nor the empty string, and carries the captured
`response_id` and the raw accumulated assistant text handed to
`update_session_after_chat`. -/
def generate (lines : List Line) (ending : StreamEnd) :
    List OutItem × Option (Str × Str) :=
  let r := runLines initState lines
  let s := r.1
  let out := r.2.1
  let broke := r.2.2
  let out := match ending with
    | .ok => out
    | .err m => if broke then out else out ++ [errorChunk m]
  let upd : Option (Str × Str) :=
    if s.assistant_content ≠ [] then
      match s.current_response_id with
      | some rid => if rid ≠ [] then some (rid, s.assistant_content) else none
      | none => none
    else none
  (out, upd)

/-- The local state of the non-streaming branch of
`QwenClient.chat_completions`. -/
structure NSState where
  response_text : Str
  reasoning_text : Str
  finish_reason : Str
  usage_data : Usage
  current_response_id : Option Str
deriving DecidableEq

/-- Initial non-streaming state (`finish_reason = "stop"`, zero usage). -/
def initNS : NSState :=
  { response_text := [], reasoning_text := [], finish_reason := "stop".data,
    usage_data := ⟨0, 0, 0⟩, current_response_id := none }

/-- Processing of one parsed event in the non-streaming branch: capture
`response_id`; when choices are present, accumulate think deltas with
status ≠ finished, accumulate answer deltas with status ≠ finished,
overwrite the usage data when the event carries usage, and capture
`finish_reason` from a finished status. -/
def nsStep (s : NSState) (e : UpEvent) : NSState :=
  let s := match e.response_created with
    | some rid => { s with current_response_id := rid }
    | none => s
  match e.delta with
  | none => s
  | some d =>
    let s := if d.phase = some "think".data ∧ d.status ≠ some "finished".data then
        { s with reasoning_text := s.reasoning_text ++ d.content }
      else s
    let s := if d.phase = some "answer".data ∧ d.status ≠ some "finished".data then
        { s with response_text := s.response_text ++ d.content }
      else s
    let s := match e.usage with
      | some u => { s with usage_data := u }
      | none => s
    let s := if d.status = some "finished".data then
        { s with finish_reason := d.finish_reason.getD "stop".data }
      else s
    s

/-- The non-streaming aggregation loop (breaks at `[DONE]`, skips
non-`data:` and unparseable lines). -/
def runNS (s : NSState) : List Line → NSState
  | [] => s
  | .done :: _ => s
  | .data e :: rest => runNS (nsStep s e) rest
  | .malformed :: rest => runNS s rest
  | .other :: rest => runNS s rest

/-- The aggregated non-streaming response: `choices[0].message.content`,
the optional `reasoning_content` (attached only when the think buffer is
non-empty), `finish_reason`, `usage`, and the session update performed
before returning, guarded by Python truthiness
(`if response_text and current_response_id`): a non-empty answer and a
captured, non-empty `response_id`. -/
structure NSResult where
  content : Str
  reasoning_content : Option Str
  finish_reason : Str
  usage : Usage
  session_update : Option (Str × Str)
deriving DecidableEq

/-- The non-streaming branch of `QwenClient.chat_completions`. -/
def chatCompletionsNS (lines : List Line) : NSResult :=
  let s := runNS initNS lines
  { content := s.response_text,
    reasoning_content := if s.reasoning_text ≠ [] then some s.reasoning_text else none,
    finish_reason := s.finish_reason,
    usage := s.usage_data,
    session_update :=
      if s.response_text ≠ [] then
        match s.current_response_id with
        | some rid => if rid ≠ [] then some (rid, s.response_text) else none
        | none => none
      else none }

/-- The two upload strategies of the upload subsystem. -/
inductive UploadPath
  | multiPart
  | postForm
deriving DecidableEq

/-- `MULTIPART_THRESHOLD = 5 * 1024 * 1024`. -/
def MULTIPART_THRESHOLD : Nat := 5 * 1024 * 1024

/-- Strategy selection of the `upload_file` endpoint:
`use_multipart = filetype == "video" or file_size > MULTIPART_THRESHOLD`. -/
def uploadFilePath (filetype : Str) (file_size : Nat) : UploadPath :=
  if filetype = "video".data ∨ file_size > MULTIPART_THRESHOLD then .multiPart
  else .postForm

/-- Strategy selection of the `upload_image_and_chat` endpoint:
multi-part when `size >= 5 * 1024 * 1024`, else the signed POST form. -/
def uploadImagePath (size : Nat) : UploadPath :=
  if size ≥ 5 * 1024 * 1024 then .multiPart else .postForm

/-- The alternate strategy. -/
def otherPath : UploadPath → UploadPath
  | .multiPart => .postForm
  | .postForm => .multiPart

/-- Attempt trace of `upload_file`: the chosen strategy is attempted once;
on failure (`upload_result["success"]` falsy) an `HTTPException` is raised
directly, with no second attempt.  `succeeds` is the outcome oracle of the
two network uploads; the result is the list of attempted strategies in
order together with the overall success flag. -/
def uploadFileAttempts (filetype : Str) (file_size : Nat)
    (succeeds : UploadPath → Bool) : List UploadPath × Bool :=
  let p := uploadFilePath filetype file_size
  ([p], succeeds p)

/-- Attempt trace of `upload_image_and_chat`: the chosen strategy is
attempted; on failure the alternate strategy is attempted once, and only
if that also fails is the upload error surfaced. -/
def uploadImageAttempts (size : Nat)
    (succeeds : UploadPath → Bool) : List UploadPath × Bool :=
  let p := uploadImagePath size
  if succeeds p then ([p], true)
  else ([p, otherPath p], succeeds (otherPath p))

/-! Spec-side characterizations, written after the specification's wording;
the theorems below relate the embedded program to them. -/

/-- The content delta an event contributes to the answer stream: the
content of an answer-phase event, or of a phase-less event with non-empty
content (the compatibility path). -/
def eventAnswerDelta (e : UpEvent) : Str :=
  match e.delta with
  | some d =>
    if d.phase = some "answer".data ∨ (d.phase = none ∧ d.content ≠ []) then d.content
    else []
  | none => []

/-- The content delta an event contributes to the reasoning buffer: the
content of a think-phase event whose status is not `finished`. -/
def eventThinkDelta (e : UpEvent) : Str :=
  match e.delta with
  | some d =>
    if d.phase = some "think".data ∧ d.status ≠ some "finished".data then d.content
    else []
  | none => []

/-- The content delta an event contributes to the non-streaming answer:
the content of an answer-phase event whose status is not `finished`. -/
def eventNSDelta (e : UpEvent) : Str :=
  match e.delta with
  | some d =>
    if d.phase = some "answer".data ∧ d.status ≠ some "finished".data then d.content
    else []
  | none => []

/-- The finish reason supplied by an event with `status = "finished"`
(reading `finish_reason` with default `"stop"`). -/
def eventFinish (e : UpEvent) : Option Str :=
  match e.delta with
  | some d =>
    if d.status = some "finished".data then some (d.finish_reason.getD "stop".data)
    else none
  | none => none

/-- Per-line versions of the deltas (non-`data:` and unparseable lines
contribute nothing). -/
def lineAnswerDelta : Line → Str
  | .data e => eventAnswerDelta e
  | _ => []

/-- Per-line think delta. -/
def lineThinkDelta : Line → Str
  | .data e => eventThinkDelta e
  | _ => []

/-- Per-line non-streaming answer delta. -/
def lineNSDelta : Line → Str
  | .data e => eventNSDelta e
  | _ => []

/-- Per-line finish reason. -/
def lineFinish : Line → Option Str
  | .data e => eventFinish e
  | _ => none

/-- Per-line `response.created` capture. -/
def lineResp : Line → Option (Option Str)
  | .data e => e.response_created
  | _ => none

/-- The prefix of the event stream before the `[DONE]` sentinel. -/
def truncAtDone : List Line → List Line
  | [] => []
  | .done :: _ => []
  | l :: rest => l :: truncAtDone rest

/-- Concatenation of the answer-phase deltas (and compatibility-path
deltas) in arrival order. -/
def specAnswerConcat : List Line → Str
  | [] => []
  | l :: rest => lineAnswerDelta l ++ specAnswerConcat rest

/-- Concatenation of the accumulated think-phase deltas in arrival order. -/
def specThinkConcat : List Line → Str
  | [] => []
  | l :: rest => lineThinkDelta l ++ specThinkConcat rest

/-- Concatenation of the non-streaming answer deltas in arrival order. -/
def specNSConcat : List Line → Str
  | [] => []
  | l :: rest => lineNSDelta l ++ specNSConcat rest

/-- Last-wins capture of the finish reason, starting from a default. -/
def capturedFinishFrom (a : Str) : List Line → Str
  | [] => a
  | l :: rest => capturedFinishFrom ((lineFinish l).getD a) rest

/-- The captured finish reason of an event sequence, defaulting to
`"stop"` when no finished event supplied one. -/
def specCapturedFinish (lines : List Line) : Str :=
  capturedFinishFrom "stop".data lines

/-- Last-wins capture of the `response_id`. -/
def lastRespFrom (a : Option Str) : List Line → Option Str
  | [] => a
  | l :: rest => lastRespFrom ((lineResp l).getD a) rest

/-- The captured `response_id` of an event sequence (none when no
`response.created` event arrived). -/
def specLastResponseId (lines : List Line) : Option Str :=
  lastRespFrom none lines

/-- The content delta carried by an emitted item. -/
def outContent : OutItem → Str
  | .chunk (some c) _ _ => c
  | _ => []

/-- Concatenation of the content deltas of the emitted items in emission
order. -/
def emittedConcat : List OutItem → Str
  | [] => []
  | i :: rest => outContent i ++ emittedConcat rest

/-- Does an emitted item carry a `reasoning_content` field? -/
def chunkHasReasoning : OutItem → Bool
  | .chunk _ (some _) _ => true
  | _ => false

/-- A think-phase event line with the given content (status in progress). -/
def mkThink (c : Str) : Line :=
  .data ⟨none, some ⟨some "think".data, none, c, none⟩, none⟩

/-- An answer-phase event line with the given content. -/
def mkAnswer (c : Str) : Line :=
  .data ⟨none, some ⟨some "answer".data, none, c, none⟩, none⟩

/-- A line is "plain" when its event does not use the compatibility path
(no phase-less content) and does not put content on a finished answer
event (a finished answer event with empty content — the typical terminal
event — is plain); on plain lines the streaming and non-streaming
aggregations agree. -/
def plainLine : Line → Prop
  | .data e =>
    match e.delta with
    | some d =>
      (d.phase = some "answer".data → d.status = some "finished".data →
        d.content = []) ∧
      (d.phase = none → d.content = [])
    | none => True
  | _ => True

theorem stepEvent_assistant (s : GenState) (e : UpEvent) :
    (stepEvent s e).1.assistant_content = s.assistant_content ++ eventAnswerDelta e := by
  rcases e with ⟨rc, d, u⟩
  rcases d with _ | ⟨ph, st, co, fr⟩
  · rcases rc with _ | rid <;> simp [stepEvent, eventAnswerDelta]
  · rcases rc with _ | rid <;>
      · simp only [stepEvent, eventAnswerDelta]
        repeat' split
        all_goals simp_all

theorem stepEvent_finish (s : GenState) (e : UpEvent) :
    (stepEvent s e).1.finish_reason = (eventFinish e).getD s.finish_reason := by
  rcases e with ⟨rc, d, u⟩
  rcases d with _ | ⟨ph, st, co, fr⟩
  · rcases rc with _ | rid <;> simp [stepEvent, eventFinish]
  · rcases rc with _ | rid <;>
      · simp only [stepEvent, eventFinish]
        repeat' split
        all_goals simp_all

theorem stepEvent_resp (s : GenState) (e : UpEvent) :
    (stepEvent s e).1.current_response_id =
      (e.response_created).getD s.current_response_id := by
  rcases e with ⟨rc, d, u⟩
  rcases d with _ | ⟨ph, st, co, fr⟩
  · rcases rc with _ | rid <;> simp [stepEvent]
  · rcases rc with _ | rid <;>
      · simp only [stepEvent]
        repeat' split
        all_goals simp_all

theorem stepEvent_outConcat (s : GenState) (e : UpEvent) :
    emittedConcat (stepEvent s e).2 = eventAnswerDelta e := by
  rcases e with ⟨rc, d, u⟩
  rcases d with _ | ⟨ph, st, co, fr⟩
  · rcases rc with _ | rid <;> simp [stepEvent, eventAnswerDelta, emittedConcat]
  · rcases rc with _ | rid <;>
      · simp only [stepEvent, eventAnswerDelta]
        repeat' split
        all_goals simp_all [emittedConcat, outContent]

theorem stepEvent_out_shape (s : GenState) (e : UpEvent) :
    ∀ i ∈ (stepEvent s e).2, ∃ c r, i = OutItem.chunk (some c) r none := by
  rcases e with ⟨rc, d, u⟩
  rcases d with _ | ⟨ph, st, co, fr⟩
  · rcases rc with _ | rid <;> simp [stepEvent]
  · rcases rc with _ | rid <;>
      · simp only [stepEvent]
        repeat' split
        all_goals simp_all

theorem runLines_assistant (lines : List Line) :
    ∀ s : GenState, (runLines s lines).1.assistant_content =
      s.assistant_content ++ specAnswerConcat (truncAtDone lines) := by
  induction lines with
  | nil => intro s; simp [runLines, truncAtDone, specAnswerConcat]
  | cons l rest ih =>
    intro s
    cases l with
    | done => simp [runLines, truncAtDone, specAnswerConcat]
    | data e =>
      simp only [runLines, truncAtDone, specAnswerConcat, lineAnswerDelta]
      rw [ih, stepEvent_assistant, List.append_assoc]
    | malformed =>
      simp only [runLines, truncAtDone, specAnswerConcat, lineAnswerDelta]
      rw [ih]
      simp
    | other =>
      simp only [runLines, truncAtDone, specAnswerConcat, lineAnswerDelta]
      rw [ih]
      simp

theorem runLines_finish (lines : List Line) :
    ∀ s : GenState, (runLines s lines).1.finish_reason =
      capturedFinishFrom s.finish_reason (truncAtDone lines) := by
  induction lines with
  | nil => intro s; simp [runLines, truncAtDone, capturedFinishFrom]
  | cons l rest ih =>
    intro s
    cases l with
    | done => simp [runLines, truncAtDone, capturedFinishFrom]
    | data e =>
      simp only [runLines, truncAtDone, capturedFinishFrom, lineFinish]
      rw [ih]
      congr 1
      rw [stepEvent_finish]
    | malformed =>
      simp only [runLines, truncAtDone, capturedFinishFrom, lineFinish]
      rw [ih]
      simp
    | other =>
      simp only [runLines, truncAtDone, capturedFinishFrom, lineFinish]
      rw [ih]
      simp

theorem runLines_resp (lines : List Line) :
    ∀ s : GenState, (runLines s lines).1.current_response_id =
      lastRespFrom s.current_response_id (truncAtDone lines) := by
  induction lines with
  | nil => intro s; simp [runLines, truncAtDone, lastRespFrom]
  | cons l rest ih =>
    intro s
    cases l with
    | done => simp [runLines, truncAtDone, lastRespFrom]
    | data e =>
      simp only [runLines, truncAtDone, lastRespFrom, lineResp]
      rw [ih]
      congr 1
      rw [stepEvent_resp]
    | malformed =>
      simp only [runLines, truncAtDone, lastRespFrom, lineResp]
      rw [ih]
      simp
    | other =>
      simp only [runLines, truncAtDone, lastRespFrom, lineResp]
      rw [ih]
      simp

theorem emittedConcat_append (a b : List OutItem) :
    emittedConcat (a ++ b) = emittedConcat a ++ emittedConcat b := by
  induction a with
  | nil => simp [emittedConcat]
  | cons i rest ih => simp [emittedConcat, ih]

theorem runLines_outConcat (lines : List Line) :
    ∀ s : GenState, emittedConcat (runLines s lines).2.1 =
      specAnswerConcat (truncAtDone lines) := by
  induction lines with
  | nil => intro s; simp [runLines, truncAtDone, specAnswerConcat, emittedConcat]
  | cons l rest ih =>
    intro s
    cases l with
    | done =>
      simp [runLines, truncAtDone, specAnswerConcat, emittedConcat, outContent]
    | data e =>
      simp only [runLines, truncAtDone, specAnswerConcat, lineAnswerDelta]
      rw [emittedConcat_append, ih, stepEvent_outConcat]
    | malformed =>
      simp only [runLines, truncAtDone, specAnswerConcat, lineAnswerDelta]
      rw [ih]
      simp
    | other =>
      simp only [runLines, truncAtDone, specAnswerConcat, lineAnswerDelta]
      rw [ih]
      simp

theorem runLines_broke (lines : List Line) (h : Line.done ∉ lines) :
    ∀ s : GenState, (runLines s lines).2.2 = false := by
  induction lines with
  | nil => intro s; simp [runLines]
  | cons l rest ih =>
    intro s
    have hl : l ≠ Line.done := fun hh => h (hh ▸ List.mem_cons_self l rest)
    have hr : Line.done ∉ rest := fun hh => h (List.mem_cons_of_mem l hh)
    cases l with
    | done => exact absurd rfl hl
    | data e => simp only [runLines]; exact ih hr _
    | malformed => simp only [runLines]; exact ih hr _
    | other => simp only [runLines]; exact ih hr _

theorem runLines_out_shape (lines : List Line) (h : Line.done ∉ lines) :
    ∀ s : GenState, ∀ i ∈ (runLines s lines).2.1,
      ∃ c r, i = OutItem.chunk (some c) r none := by
  induction lines with
  | nil => intro s i hi; simp [runLines] at hi
  | cons l rest ih =>
    intro s i hi
    have hl : l ≠ Line.done := fun hh => h (hh ▸ List.mem_cons_self l rest)
    have hr : Line.done ∉ rest := fun hh => h (List.mem_cons_of_mem l hh)
    cases l with
    | done => exact absurd rfl hl
    | data e =>
      simp only [runLines, List.mem_append] at hi
      rcases hi with hi | hi
      · exact stepEvent_out_shape s e i hi
      · exact ih hr _ i hi
    | malformed => simp only [runLines] at hi; exact ih hr _ i hi
    | other => simp only [runLines] at hi; exact ih hr _ i hi

theorem runLines_append (lines rest : List Line) (h : Line.done ∉ lines) :
    ∀ s : GenState, runLines s (lines ++ rest) =
      ((runLines (runLines s lines).1 rest).1,
       (runLines s lines).2.1 ++ (runLines (runLines s lines).1 rest).2.1,
       (runLines (runLines s lines).1 rest).2.2) := by
  induction lines with
  | nil => intro s; simp [runLines]
  | cons l ls ih =>
    intro s
    have hl : l ≠ Line.done := fun hh => h (hh ▸ List.mem_cons_self l ls)
    have hr : Line.done ∉ ls := fun hh => h (List.mem_cons_of_mem l hh)
    cases l with
    | done => exact absurd rfl hl
    | data e =>
      simp only [List.cons_append, runLines, List.append_eq]
      rw [ih hr]
      simp
    | malformed =>
      simp only [List.cons_append, runLines, List.append_eq]
      rw [ih hr]
    | other =>
      simp only [List.cons_append, runLines, List.append_eq]
      rw [ih hr]

theorem truncAtDone_of_no_done (lines : List Line) (h : Line.done ∉ lines) :
    truncAtDone lines = lines := by
  induction lines with
  | nil => rfl
  | cons l rest ih =>
    have hl : l ≠ Line.done := fun hh => h (hh ▸ List.mem_cons_self l rest)
    have hr : Line.done ∉ rest := fun hh => h (List.mem_cons_of_mem l hh)
    cases l with
    | done => exact absurd rfl hl
    | data e => simp [truncAtDone, ih hr]
    | malformed => simp [truncAtDone, ih hr]
    | other => simp [truncAtDone, ih hr]

theorem truncAtDone_append_done (events extra : List Line) (h : Line.done ∉ events) :
    truncAtDone (events ++ Line.done :: extra) = events := by
  induction events with
  | nil => rfl
  | cons l rest ih =>
    have hl : l ≠ Line.done := fun hh => h (hh ▸ List.mem_cons_self l rest)
    have hr : Line.done ∉ rest := fun hh => h (List.mem_cons_of_mem l hh)
    cases l with
    | done => exact absurd rfl hl
    | data e => simp [truncAtDone, ih hr]
    | malformed => simp [truncAtDone, ih hr]
    | other => simp [truncAtDone, ih hr]

/-- C1: in streaming mode, the concatenation of the content deltas of the
emitted chunks, in emission order, equals the concatenation of the content
fields of the answer-phase events (and, on the compatibility path, the
events with no phase and non-empty content) in arrival order — nothing is
reordered, duplicated or dropped, and unparseable events are skipped. -/
theorem c1_streaming_content_preserved (events : List Line)
    (h : Line.done ∉ events) :
    emittedConcat (generate (events ++ [Line.done]) .ok).1 =
      specAnswerConcat events := by
  simp only [generate]
  rw [runLines_outConcat, truncAtDone_append_done events [] h]

theorem c1_witness :
    Line.done ∉ [mkAnswer "he".data, mkThink "x".data, Line.malformed,
        mkAnswer "llo".data, Line.other] ∧
      emittedConcat (generate ([mkAnswer "he".data, mkThink "x".data,
          Line.malformed, mkAnswer "llo".data, Line.other] ++ [Line.done]) .ok).1 =
        specAnswerConcat [mkAnswer "he".data, mkThink "x".data, Line.malformed,
          mkAnswer "llo".data, Line.other] :=
  ⟨by decide, c1_streaming_content_preserved _ (by decide)⟩

/-- Concatenation of a list of texts. -/
def concatStrs : List Str → Str
  | [] => []
  | c :: rest => c ++ concatStrs rest

theorem runLines_think_cons (fr rt ac : Str) (hs : Bool) (cr : Option Str)
    (t : Str) (L : List Line) :
    runLines ⟨fr, rt, ac, hs, cr⟩ (mkThink t :: L) =
      runLines ⟨fr, rt ++ t, ac, hs, cr⟩ L := rfl

theorem runLines_answer_cons_none (fr ac : Str) (hs : Bool) (cr : Option Str)
    (a : Str) (L : List Line) :
    runLines ⟨fr, [], ac, hs, cr⟩ (mkAnswer a :: L) =
      ((runLines ⟨fr, [], ac ++ a, true, cr⟩ L).1,
       OutItem.chunk (some a) none none ::
         (runLines ⟨fr, [], ac ++ a, true, cr⟩ L).2.1,
       (runLines ⟨fr, [], ac ++ a, true, cr⟩ L).2.2) := rfl

theorem runLines_answer_cons_flush (fr : Str) (r0 : Char) (rr ac : Str)
    (hs : Bool) (cr : Option Str) (a : Str) (L : List Line) :
    runLines ⟨fr, r0 :: rr, ac, hs, cr⟩ (mkAnswer a :: L) =
      ((runLines ⟨fr, [], ac ++ a, true, cr⟩ L).1,
       OutItem.chunk (some a) (some (r0 :: rr)) none ::
         (runLines ⟨fr, [], ac ++ a, true, cr⟩ L).2.1,
       (runLines ⟨fr, [], ac ++ a, true, cr⟩ L).2.2) := rfl

theorem runLines_thinks (thinks : List Str) (rest : List Line) :
    ∀ fr rt ac : Str, ∀ hs : Bool, ∀ cr : Option Str,
      runLines ⟨fr, rt, ac, hs, cr⟩ (thinks.map mkThink ++ rest) =
        runLines ⟨fr, rt ++ concatStrs thinks, ac, hs, cr⟩ rest := by
  induction thinks with
  | nil =>
    intro fr rt ac hs cr
    simp [concatStrs]
  | cons t ts ih =>
    intro fr rt ac hs cr
    simp only [List.map_cons, List.cons_append, runLines_think_cons]
    rw [ih, List.append_assoc]
    try rfl

theorem runLines_answers_done (answers : List Str) :
    ∀ fr ac : Str, ∀ hs : Bool, ∀ cr : Option Str,
      (runLines ⟨fr, [], ac, hs, cr⟩ (answers.map mkAnswer ++ [Line.done])).2.1 =
        answers.map (fun a => OutItem.chunk (some a) none none) ++
          [OutItem.chunk none none (some fr), OutItem.doneMark] := by
  induction answers with
  | nil => intro fr ac hs cr; rfl
  | cons a as ih =>
    intro fr ac hs cr
    simp only [List.map_cons, List.cons_append, runLines_answer_cons_none]
    rw [ih]
    try simp

/-- C2: for a sequence of think-phase deltas followed by answer-phase
deltas, exactly one emitted chunk carries `reasoning_content`; its value
is the concatenation of the accumulated think deltas in arrival order, it
is attached to the chunk carrying the first answer delta, and no later
chunk carries `reasoning_content`. -/
theorem c2_reasoning_flushed_once (thinks : List Str) (a0 : Str)
    (answers : List Str) (hth : concatStrs thinks ≠ []) :
    (generate (thinks.map mkThink ++ (mkAnswer a0 :: (answers.map mkAnswer ++
        [Line.done]))) .ok).1.countP chunkHasReasoning = 1 ∧
    (generate (thinks.map mkThink ++ (mkAnswer a0 :: (answers.map mkAnswer ++
        [Line.done]))) .ok).1.head? =
      some (OutItem.chunk (some a0) (some (concatStrs thinks)) none) ∧
    ∀ i ∈ (generate (thinks.map mkThink ++ (mkAnswer a0 :: (answers.map mkAnswer ++
        [Line.done]))) .ok).1.tail, chunkHasReasoning i = false := by
  obtain ⟨r0, rr, hcons⟩ : ∃ r0 rr, concatStrs thinks = r0 :: rr := by
    rcases hc : concatStrs thinks with _ | ⟨r0, rr⟩
    · exact absurd hc hth
    · exact ⟨r0, rr, rfl⟩
  have hout : (generate (thinks.map mkThink ++ (mkAnswer a0 :: (answers.map mkAnswer ++
      [Line.done]))) .ok).1 =
      OutItem.chunk (some a0) (some (concatStrs thinks)) none ::
        (answers.map (fun a => OutItem.chunk (some a) none none) ++
          [OutItem.chunk none none (some "stop".data), OutItem.doneMark]) := by
    have h0 : (generate (thinks.map mkThink ++ (mkAnswer a0 ::
        (answers.map mkAnswer ++ [Line.done]))) .ok).1 =
        (runLines ⟨"stop".data, [], [], false, none⟩
          (thinks.map mkThink ++ (mkAnswer a0 ::
            (answers.map mkAnswer ++ [Line.done])))).2.1 := rfl
    rw [h0, runLines_thinks, List.nil_append, hcons, runLines_answer_cons_flush]
    simp only [runLines_answers_done answers]
  rw [hout]
  have hz : (answers.map (fun a => OutItem.chunk (some a) none none)).countP
      chunkHasReasoning = 0 := by
    rw [List.countP_eq_zero]
    intro i hi
    rcases List.mem_map.mp hi with ⟨a, _, rfl⟩
    simp [chunkHasReasoning]
  refine ⟨?_, rfl, ?_⟩
  · simp [List.countP_cons, List.countP_append, chunkHasReasoning, hz]
  · intro i hi
    simp only [List.tail_cons] at hi
    rcases List.mem_append.mp hi with hmap | hlast
    · rcases List.mem_map.mp hmap with ⟨a, _, rfl⟩
      rfl
    · simp only [List.mem_cons, List.mem_singleton, List.not_mem_nil,
        or_false] at hlast
      rcases hlast with rfl | rfl <;> rfl

theorem c2_witness :
    concatStrs ["A".data] ≠ [] ∧
      ((generate (["A".data].map mkThink ++ (mkAnswer "C".data ::
          (["D".data].map mkAnswer ++ [Line.done]))) .ok).1.countP chunkHasReasoning = 1 ∧
       (generate (["A".data].map mkThink ++ (mkAnswer "C".data ::
          (["D".data].map mkAnswer ++ [Line.done]))) .ok).1.head? =
         some (OutItem.chunk (some "C".data) (some (concatStrs ["A".data])) none) ∧
       ∀ i ∈ (generate (["A".data].map mkThink ++ (mkAnswer "C".data ::
          (["D".data].map mkAnswer ++ [Line.done]))) .ok).1.tail,
         chunkHasReasoning i = false) :=
  ⟨by decide, c2_reasoning_flushed_once ["A".data] "C".data ["D".data] (by decide)⟩

theorem generate_upd_formula (L : List Line) (ending : StreamEnd) :
    (generate L ending).2 =
      (if specAnswerConcat (truncAtDone L) = [] then none
       else match lastRespFrom none (truncAtDone L) with
         | some rid =>
           if rid ≠ [] then some (rid, specAnswerConcat (truncAtDone L)) else none
         | none => none) := by
  have hA : (runLines initState L).1.assistant_content =
      specAnswerConcat (truncAtDone L) := by
    rw [runLines_assistant]; rfl
  have hR : (runLines initState L).1.current_response_id =
      lastRespFrom none (truncAtDone L) := by
    rw [runLines_resp]; rfl
  simp only [generate, hA, hR]
  by_cases h0 : specAnswerConcat (truncAtDone L) = []
  · simp [h0]
  · rcases hRR : lastRespFrom none (truncAtDone L) with _ | rid <;> simp [h0, hRR]

/-- C5: when the `[DONE]` sentinel arrives, the translator emits exactly
one final chunk with an empty delta and the captured finish reason
(default `"stop"` when no finished event supplied one), then the literal
end marker, and the stream ends — the emitted sequence is independent of
any later lines and of how the transport would have ended, and every
earlier item is a content chunk. -/
theorem c5_done_sentinel_final_chunk (lines extra : List Line)
    (ending : StreamEnd) (h : Line.done ∉ lines) :
    (generate (lines ++ Line.done :: extra) ending).1 =
      (runLines initState lines).2.1 ++
        [OutItem.chunk none none (some (specCapturedFinish lines)),
         OutItem.doneMark] ∧
    ∀ i ∈ (runLines initState lines).2.1, ∃ c r, i = OutItem.chunk (some c) r none := by
  refine ⟨?_, runLines_out_shape lines h initState⟩
  have happ := runLines_append lines (Line.done :: extra) h initState
  have hbroke : (runLines initState (lines ++ Line.done :: extra)).2.2 = true := by
    rw [happ]
    rfl
  have hgen : (generate (lines ++ Line.done :: extra) ending).1 =
      (runLines initState (lines ++ Line.done :: extra)).2.1 := by
    cases ending with
    | ok => rfl
    | err m => simp [generate, hbroke]
  rw [hgen, happ]
  have hfin : (runLines initState lines).1.finish_reason =
      specCapturedFinish lines := by
    rw [runLines_finish, truncAtDone_of_no_done lines h]
    rfl
  simp only [runLines]
  rw [hfin]

theorem c5_witness :
    Line.done ∉ [mkThink "a".data, mkAnswer "b".data, Line.other] ∧
      ((generate ([mkThink "a".data, mkAnswer "b".data, Line.other] ++
          Line.done :: [mkAnswer "zz".data]) .ok).1 =
        (runLines initState [mkThink "a".data, mkAnswer "b".data, Line.other]).2.1 ++
          [OutItem.chunk none none
            (some (specCapturedFinish [mkThink "a".data, mkAnswer "b".data, Line.other])),
           OutItem.doneMark] ∧
       ∀ i ∈ (runLines initState [mkThink "a".data, mkAnswer "b".data, Line.other]).2.1,
         ∃ c r, i = OutItem.chunk (some c) r none) :=
  ⟨by decide, c5_done_sentinel_final_chunk [mkThink "a".data, mkAnswer "b".data,
    Line.other] [mkAnswer "zz".data] .ok (by decide)⟩

/-- C4 (amended): on a transport failure after the delivered lines (no
sentinel seen), the generator emits exactly one further chunk — the error
chunk, whose content is the error text and whose finish reason is
`"error"` — after the ordinary content chunks; and on either termination
(normal `[DONE]` or transport error) the session update is performed if
and only if the accumulated answer buffer is non-empty AND a non-empty
`response_id` was captured (Python truthiness: a missing or empty-string
id fails the guard), carrying the captured id and the accumulated answer
text.  (The original claim omitted the captured-`response_id`
requirement.) -/
theorem c4_error_chunk_and_session_update (lines : List Line) (m : Str)
    (h : Line.done ∉ lines) :
    (generate lines (.err m)).1 =
      (runLines initState lines).2.1 ++ [errorChunk m] ∧
    (∀ i ∈ (runLines initState lines).2.1, ∃ c r, i = OutItem.chunk (some c) r none) ∧
    (generate lines (.err m)).2 =
      (if specAnswerConcat lines = [] then none
       else match specLastResponseId lines with
         | some rid => if rid ≠ [] then some (rid, specAnswerConcat lines) else none
         | none => none) ∧
    (generate (lines ++ [Line.done]) .ok).2 =
      (if specAnswerConcat lines = [] then none
       else match specLastResponseId lines with
         | some rid => if rid ≠ [] then some (rid, specAnswerConcat lines) else none
         | none => none) := by
  refine ⟨?_, runLines_out_shape lines h initState, ?_, ?_⟩
  · have hbroke := runLines_broke lines h initState
    simp [generate, hbroke]
  · rw [generate_upd_formula, truncAtDone_of_no_done lines h]
    rfl
  · rw [generate_upd_formula, truncAtDone_append_done lines [] h]
    rfl

theorem c4_witness :
    Line.done ∉ [Line.data ⟨some (some "r1".data), some ⟨some "answer".data,
        none, "hi".data, none⟩, none⟩] ∧
      ((generate [Line.data ⟨some (some "r1".data), some ⟨some "answer".data,
          none, "hi".data, none⟩, none⟩] (.err "boom".data)).1 =
        (runLines initState [Line.data ⟨some (some "r1".data), some ⟨some "answer".data,
          none, "hi".data, none⟩, none⟩]).2.1 ++ [errorChunk "boom".data] ∧
       (∀ i ∈ (runLines initState [Line.data ⟨some (some "r1".data), some ⟨some "answer".data,
          none, "hi".data, none⟩, none⟩]).2.1,
         ∃ c r, i = OutItem.chunk (some c) r none) ∧
       (generate [Line.data ⟨some (some "r1".data), some ⟨some "answer".data,
          none, "hi".data, none⟩, none⟩] (.err "boom".data)).2 =
         (if specAnswerConcat [Line.data ⟨some (some "r1".data), some ⟨some "answer".data,
            none, "hi".data, none⟩, none⟩] = [] then none
          else match specLastResponseId [Line.data ⟨some (some "r1".data),
              some ⟨some "answer".data, none, "hi".data, none⟩, none⟩] with
            | some rid =>
              if rid ≠ [] then some (rid, specAnswerConcat [Line.data
                ⟨some (some "r1".data), some ⟨some "answer".data, none, "hi".data,
                  none⟩, none⟩]) else none
            | none => none) ∧
       (generate ([Line.data ⟨some (some "r1".data), some ⟨some "answer".data,
          none, "hi".data, none⟩, none⟩] ++ [Line.done]) .ok).2 =
         (if specAnswerConcat [Line.data ⟨some (some "r1".data), some ⟨some "answer".data,
            none, "hi".data, none⟩, none⟩] = [] then none
          else match specLastResponseId [Line.data ⟨some (some "r1".data),
              some ⟨some "answer".data, none, "hi".data, none⟩, none⟩] with
            | some rid =>
              if rid ≠ [] then some (rid, specAnswerConcat [Line.data
                ⟨some (some "r1".data), some ⟨some "answer".data, none, "hi".data,
                  none⟩, none⟩]) else none
            | none => none)) :=
  ⟨by decide, c4_error_chunk_and_session_update [Line.data ⟨some (some "r1".data),
    some ⟨some "answer".data, none, "hi".data, none⟩, none⟩] "boom".data
    (by decide)⟩

/-- C4 counterexample: the event sequence `answer "hello"` then `[DONE]`
terminates normally with a non-empty accumulated answer buffer, yet no
session update is performed, because no `response.created` event supplied
a `response_id` — refuting the claim that a non-empty answer buffer alone
triggers the upsert. -/
theorem c4_counterexample :
    (runLines initState [mkAnswer "hello".data, Line.done]).1.assistant_content =
      "hello".data ∧
    "hello".data ≠ ([] : Str) ∧
    (generate [mkAnswer "hello".data, Line.done] .ok).2 = none := by
  decide

theorem nsStep_response (s : NSState) (e : UpEvent) :
    (nsStep s e).response_text = s.response_text ++ eventNSDelta e := by
  rcases e with ⟨rc, d, u⟩
  rcases d with _ | ⟨ph, st, co, fr⟩
  · rcases rc with _ | rid <;> simp [nsStep, eventNSDelta]
  · rcases rc with _ | rid <;> rcases u with _ | u <;>
      · simp only [nsStep, eventNSDelta]
        repeat' split
        all_goals simp_all

theorem nsStep_reasoning (s : NSState) (e : UpEvent) :
    (nsStep s e).reasoning_text = s.reasoning_text ++ eventThinkDelta e := by
  rcases e with ⟨rc, d, u⟩
  rcases d with _ | ⟨ph, st, co, fr⟩
  · rcases rc with _ | rid <;> simp [nsStep, eventThinkDelta]
  · rcases rc with _ | rid <;> rcases u with _ | u <;>
      · simp only [nsStep, eventThinkDelta]
        repeat' split
        all_goals simp_all

theorem nsStep_finish (s : NSState) (e : UpEvent) :
    (nsStep s e).finish_reason = (eventFinish e).getD s.finish_reason := by
  rcases e with ⟨rc, d, u⟩
  rcases d with _ | ⟨ph, st, co, fr⟩
  · rcases rc with _ | rid <;> simp [nsStep, eventFinish]
  · rcases rc with _ | rid <;> rcases u with _ | u <;>
      · simp only [nsStep, eventFinish]
        repeat' split
        all_goals simp_all

theorem runNS_response (lines : List Line) :
    ∀ s : NSState, (runNS s lines).response_text =
      s.response_text ++ specNSConcat (truncAtDone lines) := by
  induction lines with
  | nil => intro s; simp [runNS, truncAtDone, specNSConcat]
  | cons l rest ih =>
    intro s
    cases l with
    | done => simp [runNS, truncAtDone, specNSConcat]
    | data e =>
      simp only [runNS, truncAtDone, specNSConcat, lineNSDelta]
      rw [ih, nsStep_response, List.append_assoc]
    | malformed =>
      simp only [runNS, truncAtDone, specNSConcat, lineNSDelta]
      rw [ih]
      simp
    | other =>
      simp only [runNS, truncAtDone, specNSConcat, lineNSDelta]
      rw [ih]
      simp

theorem runNS_reasoning (lines : List Line) :
    ∀ s : NSState, (runNS s lines).reasoning_text =
      s.reasoning_text ++ specThinkConcat (truncAtDone lines) := by
  induction lines with
  | nil => intro s; simp [runNS, truncAtDone, specThinkConcat]
  | cons l rest ih =>
    intro s
    cases l with
    | done => simp [runNS, truncAtDone, specThinkConcat]
    | data e =>
      simp only [runNS, truncAtDone, specThinkConcat, lineThinkDelta]
      rw [ih, nsStep_reasoning, List.append_assoc]
    | malformed =>
      simp only [runNS, truncAtDone, specThinkConcat, lineThinkDelta]
      rw [ih]
      simp
    | other =>
      simp only [runNS, truncAtDone, specThinkConcat, lineThinkDelta]
      rw [ih]
      simp

theorem runNS_finish (lines : List Line) :
    ∀ s : NSState, (runNS s lines).finish_reason =
      capturedFinishFrom s.finish_reason (truncAtDone lines) := by
  induction lines with
  | nil => intro s; simp [runNS, truncAtDone, capturedFinishFrom]
  | cons l rest ih =>
    intro s
    cases l with
    | done => simp [runNS, truncAtDone, capturedFinishFrom]
    | data e =>
      simp only [runNS, truncAtDone, capturedFinishFrom, lineFinish]
      rw [ih]
      congr 1
      rw [nsStep_finish]
    | malformed =>
      simp only [runNS, truncAtDone, capturedFinishFrom, lineFinish]
      rw [ih]
      simp
    | other =>
      simp only [runNS, truncAtDone, capturedFinishFrom, lineFinish]
      rw [ih]
      simp

theorem truncAtDone_subset (lines : List Line) :
    ∀ l ∈ truncAtDone lines, l ∈ lines := by
  induction lines with
  | nil => intro l hl; simp [truncAtDone] at hl
  | cons x rest ih =>
    intro l hl
    cases x with
    | done => simp [truncAtDone] at hl
    | data e =>
      simp only [truncAtDone] at hl
      rcases List.mem_cons.mp hl with rfl | hl
      · exact List.mem_cons_self _ _
      · exact List.mem_cons_of_mem _ (ih l hl)
    | malformed =>
      simp only [truncAtDone] at hl
      rcases List.mem_cons.mp hl with rfl | hl
      · exact List.mem_cons_self _ _
      · exact List.mem_cons_of_mem _ (ih l hl)
    | other =>
      simp only [truncAtDone] at hl
      rcases List.mem_cons.mp hl with rfl | hl
      · exact List.mem_cons_self _ _
      · exact List.mem_cons_of_mem _ (ih l hl)

instance instDecidablePlainLine : ∀ l : Line, Decidable (plainLine l)
  | .done => isTrue trivial
  | .malformed => isTrue trivial
  | .other => isTrue trivial
  | .data e => by
    rcases e with ⟨rc, d, u⟩
    rcases d with _ | d
    · exact isTrue trivial
    · simp only [plainLine]
      infer_instance

theorem lineNS_eq_answer_of_plain (l : Line) (h : plainLine l) :
    lineNSDelta l = lineAnswerDelta l := by
  cases l with
  | done => rfl
  | malformed => rfl
  | other => rfl
  | data e =>
    rcases e with ⟨rc, d, u⟩
    rcases d with _ | ⟨ph, st, co, fr⟩
    · rfl
    · simp only [plainLine] at h
      simp only [lineNSDelta, lineAnswerDelta, eventNSDelta, eventAnswerDelta]
      rcases ph with _ | ph
      · have hco : co = [] := h.2 rfl
        subst hco
        simp
      · by_cases hans : some ph = some ("answer".data : Str)
        · rcases hans with ⟨rfl⟩
          by_cases hst : st = some ("finished".data : Str)
          · have hco : co = [] := h.1 rfl hst
            subst hco
            simp [hst]
          · simp [hst]
        · simp only [if_neg, hans]
          rw [if_neg, if_neg]
          · simp [hans]
          · simp [hans]

theorem specNS_eq_specAnswer (lines : List Line)
    (h : ∀ l ∈ lines, plainLine l) :
    specNSConcat lines = specAnswerConcat lines := by
  induction lines with
  | nil => rfl
  | cons l rest ih =>
    simp only [specNSConcat, specAnswerConcat]
    rw [lineNS_eq_answer_of_plain l (h l (List.mem_cons_self l rest)),
      ih (fun x hx => h x (List.mem_cons_of_mem l hx))]

/-- C3 (amended): the non-streaming branch aggregates only answer-phase
deltas whose status is not `finished` and has no compatibility path for
phase-less events, so its state machine differs from the streaming one;
on sequences whose events are plain (no phase-less content, no content on
finished answer events) its message content equals the concatenation of
the streaming content deltas, while the final finish reason always agrees
with the streaming machine and `reasoning_content` is the concatenation
of the accumulated think-phase deltas (absent when empty). -/
theorem c3_nonstreaming_vs_streaming (lines : List Line)
    (h : ∀ l ∈ lines, plainLine l) :
    (chatCompletionsNS lines).content = emittedConcat (generate lines .ok).1 ∧
    (chatCompletionsNS lines).finish_reason =
      (runLines initState lines).1.finish_reason ∧
    (chatCompletionsNS lines).reasoning_content =
      (if specThinkConcat (truncAtDone lines) = [] then none
       else some (specThinkConcat (truncAtDone lines))) := by
  have hplain : ∀ l ∈ truncAtDone lines, plainLine l :=
    fun l hl => h l (truncAtDone_subset lines l hl)
  refine ⟨?_, ?_, ?_⟩
  · have h1 : (chatCompletionsNS lines).content =
        specNSConcat (truncAtDone lines) := by
      show (runNS initNS lines).response_text = _
      rw [runNS_response]
      rfl
    have h2 : emittedConcat (generate lines .ok).1 =
        specAnswerConcat (truncAtDone lines) := by
      show emittedConcat (runLines initState lines).2.1 = _
      rw [runLines_outConcat]
    rw [h1, h2, specNS_eq_specAnswer _ hplain]
  · show (runNS initNS lines).finish_reason = _
    rw [runNS_finish, runLines_finish]
    rfl
  · show (if (runNS initNS lines).reasoning_text ≠ [] then
        some (runNS initNS lines).reasoning_text else none) = _
    have hr : (runNS initNS lines).reasoning_text =
        specThinkConcat (truncAtDone lines) := by
      rw [runNS_reasoning]
      rfl
    rw [hr]
    by_cases h0 : specThinkConcat (truncAtDone lines) = [] <;> simp [h0]

theorem c3_witness :
    (∀ l ∈ [mkThink "t".data, mkAnswer "a".data,
        Line.data ⟨none, some ⟨some "answer".data, some "finished".data, [],
          some "stop".data⟩, none⟩, Line.done], plainLine l) ∧
      ((chatCompletionsNS [mkThink "t".data, mkAnswer "a".data,
        Line.data ⟨none, some ⟨some "answer".data, some "finished".data, [],
          some "stop".data⟩, none⟩, Line.done]).content =
        emittedConcat (generate [mkThink "t".data, mkAnswer "a".data,
        Line.data ⟨none, some ⟨some "answer".data, some "finished".data, [],
          some "stop".data⟩, none⟩, Line.done] .ok).1 ∧
       (chatCompletionsNS [mkThink "t".data, mkAnswer "a".data,
        Line.data ⟨none, some ⟨some "answer".data, some "finished".data, [],
          some "stop".data⟩, none⟩, Line.done]).finish_reason =
        (runLines initState [mkThink "t".data, mkAnswer "a".data,
        Line.data ⟨none, some ⟨some "answer".data, some "finished".data, [],
          some "stop".data⟩, none⟩, Line.done]).1.finish_reason ∧
       (chatCompletionsNS [mkThink "t".data, mkAnswer "a".data,
        Line.data ⟨none, some ⟨some "answer".data, some "finished".data, [],
          some "stop".data⟩, none⟩, Line.done]).reasoning_content =
        (if specThinkConcat (truncAtDone [mkThink "t".data, mkAnswer "a".data,
        Line.data ⟨none, some ⟨some "answer".data, some "finished".data, [],
          some "stop".data⟩, none⟩, Line.done]) = [] then none
         else some (specThinkConcat (truncAtDone [mkThink "t".data, mkAnswer "a".data,
        Line.data ⟨none, some ⟨some "answer".data, some "finished".data, [],
          some "stop".data⟩, none⟩, Line.done])))) :=
  ⟨by decide, c3_nonstreaming_vs_streaming [mkThink "t".data, mkAnswer "a".data,
        Line.data ⟨none, some ⟨some "answer".data, some "finished".data, [],
          some "stop".data⟩, none⟩, Line.done] (by decide)⟩

/-- C3 counterexample: on the sequence consisting of one phase-less event
with content `"X"` followed by `[DONE]`, the streaming mode emits `"X"`
(compatibility path) while the non-streaming aggregation produces an empty
message content — the two modes do not run the same state machine. -/
theorem c3_counterexample :
    (chatCompletionsNS [Line.data ⟨none, some ⟨none, none, "X".data, none⟩, none⟩,
      Line.done]).content = [] ∧
    emittedConcat (generate [Line.data ⟨none, some ⟨none, none, "X".data, none⟩, none⟩,
      Line.done] .ok).1 = "X".data ∧
    ([] : Str) ≠ "X".data := by
  decide

/-- C6: with no assistant message in the client history the matcher
starts a new thread (`none`); and whenever it returns a stored session,
the normalized content of the most recent assistant message equals the
normalized stored last-assistant text of that session, and that session
is the first such row in scan order (earlier rows do not match). -/
theorem c6_continuity_matcher (store : SessionStore) (messages : List Msg) :
    ((∀ m ∈ messages, m.role ≠ "assistant".data) →
      find_matching_session store messages = none) ∧
    (∀ r, find_matching_session store messages = some r →
      ∃ m, messages.reverse.find? (fun m => m.role = "assistant".data) = some m ∧
        m.role = "assistant".data ∧
        ∃ s, r.last_assistant_content = some s ∧
          normalize_text s = normalize_text m.content ∧
          ∃ pre post,
            store.filter (fun rr => rr.last_assistant_content.isSome) =
              pre ++ r :: post ∧
            ∀ r' ∈ pre, ∀ s', r'.last_assistant_content = some s' →
              normalize_text s' ≠ normalize_text m.content) := by
  constructor
  · intro h
    have hnone : messages.reverse.find?
        (fun m => m.role = "assistant".data) = none := by
      rw [List.find?_eq_none]
      intro x hx
      simpa using h x (List.mem_reverse.mp hx)
    simp [find_matching_session, hnone]
  · intro r hr
    unfold find_matching_session at hr
    rcases hfind : messages.reverse.find?
        (fun m => m.role = "assistant".data) with _ | m
    · rw [hfind] at hr
      cases hr
    · rw [hfind] at hr
      dsimp only at hr
      by_cases hc : m.content = []
      · rw [if_pos hc] at hr
        cases hr
      · rw [if_neg hc] at hr
        refine ⟨m, hfind, by simpa using List.find?_some hfind, ?_⟩
        unfold get_session_by_last_content at hr
        rcases List.find?_eq_some.mp hr with ⟨hpred, pre, post, hsplit, hpre⟩
        have hmem : r ∈ store.filter
            (fun rr => rr.last_assistant_content.isSome) := by
          rw [hsplit]
          exact List.mem_append.mpr (Or.inr (List.mem_cons_self _ _))
        have hsome : r.last_assistant_content.isSome :=
          (List.mem_filter.mp hmem).2
        rcases hs : r.last_assistant_content with _ | s
        · rw [hs] at hsome
          cases hsome
        · refine ⟨s, rfl, ?_, pre, post, hsplit, ?_⟩
          · have := of_decide_eq_true hpred
            rw [hs] at this
            simpa using this
          · intro r' hr' s' hs' hcontra
            have hfalse := hpre r' hr'
            rw [Bool.not_eq_eq_eq_not, Bool.not_true] at hfalse
            have : normalize_text (r'.last_assistant_content.getD []) =
                normalize_text m.content := by
              rw [hs']
              simpa using hcontra
            rw [decide_eq_false_iff_not] at hfalse
            exact hfalse this

theorem c6_witness :
    find_matching_session
      [⟨"id1".data, "t".data, 0, 0, "t2t".data, "r1".data, some "hello".data⟩]
      [⟨"user".data, "hi".data⟩] = none :=
  (c6_continuity_matcher
    [⟨"id1".data, "t".data, 0, 0, "t2t".data, "r1".data, some "hello".data⟩]
    [⟨"user".data, "hi".data⟩]).1 (by decide)

theorem remove_tool_of_no_open (l : Str) (h : ∀ c ∈ l, c ≠ '<') :
    remove_tool l = l := by
  induction l with
  | nil => rw [remove_tool]
  | cons c rest ih =>
    have hcond : ¬ List.take 10 (c :: rest) = openTag := by
      intro hEq
      rw [List.take_succ_cons] at hEq
      have hc : c = '<' := by
        have := congrArg List.head? hEq
        simpa [openTag] using this
      exact h c (List.mem_cons_self _ _) hc
    rw [remove_tool, if_neg hcond,
      ih (fun x hx => h x (List.mem_cons_of_mem _ hx))]

/-- C8 (amended): `update_session` keeps at most one row per `chat_id`
(`INSERT OR REPLACE` on the primary key), and the stored last-assistant
text of the written row is `remove_tool` of the raw text — the tool-use
spans are stripped, but the text is NOT normalized (normalization happens
at lookup time instead). -/
theorem c8_update_session_invariant (store : SessionStore) (cid title : Str)
    (ca ua : Nat) (ct rid raw : Str)
    (huniq : (store.map SessionRecord.chat_id).Nodup) :
    ((update_session store cid title ca ua ct rid raw).map
      SessionRecord.chat_id).Nodup ∧
    ∃ r, r ∈ update_session store cid title ca ua ct rid raw ∧
      r.chat_id = cid ∧ r.last_assistant_content = some (remove_tool raw) ∧
      ∀ r' ∈ update_session store cid title ca ua ct rid raw,
        r'.chat_id = cid → r' = r := by
  constructor
  · unfold update_session
    rw [List.map_append, List.nodup_append]
    refine ⟨((List.filter_sublist store).map SessionRecord.chat_id).nodup huniq,
      List.nodup_singleton _, ?_⟩
    intro x hx hy
    rcases List.mem_map.mp hx with ⟨r', hr', rfl⟩
    have hne := (List.mem_filter.mp hr').2
    simp only [List.map_cons, List.map_nil, List.mem_singleton] at hy
    simp [hy] at hne
  · refine ⟨_, List.mem_append.mpr (Or.inr (List.mem_cons_self _ _)),
      rfl, rfl, ?_⟩
    intro r' hr' hcid
    rcases List.mem_append.mp hr' with hl | hrr
    · have := (List.mem_filter.mp hl).2
      simp [hcid] at this
    · simpa using hrr

theorem c8_witness :
    (([] : SessionStore).map SessionRecord.chat_id).Nodup ∧
      (((update_session [] "c1".data "t".data 3 4 "t2t".data "r".data
          "hi".data).map SessionRecord.chat_id).Nodup ∧
       ∃ r, r ∈ update_session [] "c1".data "t".data 3 4 "t2t".data "r".data
           "hi".data ∧
         r.chat_id = "c1".data ∧
         r.last_assistant_content = some (remove_tool "hi".data) ∧
         ∀ r' ∈ update_session [] "c1".data "t".data 3 4 "t2t".data "r".data
             "hi".data, r'.chat_id = "c1".data → r' = r) :=
  ⟨by decide, c8_update_session_invariant [] "c1".data "t".data 3 4 "t2t".data
    "r".data "hi".data (by decide)⟩

/-- C8 counterexample: a raw assistant text `"a  b"` (double space, no
tool-use spans) is stored verbatim by `update_session`, and it is not a
fixed point of the normalization function — the stored text is not the
result of normalization. -/
theorem c8_counterexample :
    update_session [] "c".data "t".data 0 0 "q".data "r".data "a  b".data =
      [⟨"c".data, "t".data, 0, 0, "q".data, "r".data, some "a  b".data⟩] ∧
    normalize_text "a  b".data ≠ "a  b".data := by
  have hrt : remove_tool "a  b".data = "a  b".data :=
    remove_tool_of_no_open _ (by decide)
  constructor
  · simp [update_session, hrt]
  · decide

/-- C9 (amended): the generic `upload_file` endpoint picks the multi-part
path exactly when the media class is video or the size strictly exceeds
5 MiB; the image upload-and-chat endpoint (image media only) picks the
multi-part path exactly when the size is at least 5 MiB — at exactly
5 MiB the two endpoints choose differently. -/
theorem c9_upload_strategy (filetype : Str) (n : Nat) :
    (uploadFilePath filetype n = UploadPath.multiPart ↔
      (filetype = "video".data ∨ n > MULTIPART_THRESHOLD)) ∧
    (uploadImagePath n = UploadPath.multiPart ↔ 5 * 1024 * 1024 ≤ n) := by
  constructor
  · by_cases hc : filetype = "video".data ∨ n > MULTIPART_THRESHOLD <;>
      simp [uploadFilePath, hc]
  · by_cases hc : 5 * 1024 * 1024 ≤ n <;> simp [uploadImagePath, hc]

theorem c9_witness :
    uploadFilePath "video".data 0 = UploadPath.multiPart :=
  (c9_upload_strategy "video".data 0).1.mpr (Or.inl rfl)

/-- C9 counterexample: an image upload of exactly 5 MiB goes through the
multi-part path in `upload_image_and_chat`, although its media class is
not video and its size does not exceed 5 MiB. -/
theorem c9_counterexample :
    uploadImagePath (5 * 1024 * 1024) = UploadPath.multiPart ∧
    ¬ (("image".data : Str) = "video".data ∨
        5 * 1024 * 1024 > MULTIPART_THRESHOLD) := by
  decide

/-- C10 (amended): the `upload_file` endpoint makes exactly one strategy
attempt — a failure surfaces immediately with no fallback; only the
`upload_image_and_chat` endpoint falls back: when its chosen strategy
fails it attempts the alternate strategy exactly once (never a third
attempt), succeeding iff the alternate succeeds. -/
theorem c10_upload_fallback (filetype : Str) (n : Nat)
    (succeeds : UploadPath → Bool) :
    (uploadFileAttempts filetype n succeeds).1 = [uploadFilePath filetype n] ∧
    (uploadImageAttempts n succeeds).1.length ≤ 2 ∧
    (succeeds (uploadImagePath n) = false →
      (uploadImageAttempts n succeeds).1 =
        [uploadImagePath n, otherPath (uploadImagePath n)] ∧
      otherPath (uploadImagePath n) ≠ uploadImagePath n ∧
      (uploadImageAttempts n succeeds).2 =
        succeeds (otherPath (uploadImagePath n))) ∧
    (succeeds (uploadImagePath n) = true →
      (uploadImageAttempts n succeeds).1 = [uploadImagePath n] ∧
      (uploadImageAttempts n succeeds).2 = true) := by
  refine ⟨rfl, ?_, ?_, ?_⟩
  · by_cases hs : succeeds (uploadImagePath n) = true <;>
      simp [uploadImageAttempts, hs]
  · intro hs
    refine ⟨by simp [uploadImageAttempts, hs], ?_, by simp [uploadImageAttempts, hs]⟩
    cases hp : uploadImagePath n <;> simp [otherPath]
  · intro hs
    exact ⟨by simp [uploadImageAttempts, hs], by simp [uploadImageAttempts, hs]⟩

theorem c10_witness :
    (uploadImageAttempts 0 (fun _ => false)).1 =
      [uploadImagePath 0, otherPath (uploadImagePath 0)] ∧
    otherPath (uploadImagePath 0) ≠ uploadImagePath 0 ∧
    (uploadImageAttempts 0 (fun _ => false)).2 =
      (fun _ : UploadPath => false) (otherPath (uploadImagePath 0)) :=
  (c10_upload_fallback "file".data 0 (fun _ => false)).2.2.1 rfl

/-- C10 counterexample: in the `upload_file` endpoint a failing chosen
path (here the single-shot form upload of a small non-video file) leads
directly to the surfaced upload error — the attempt trace contains no
multi-part fallback, refuting the claim that every upload coordinator
attempts the alternate path once. -/
theorem c10_counterexample :
    (uploadFileAttempts "file".data 0 (fun _ => false)).1 =
      [UploadPath.postForm] ∧
    UploadPath.multiPart ∉ (uploadFileAttempts "file".data 0 (fun _ => false)).1 ∧
    (uploadFileAttempts "file".data 0 (fun _ => false)).2 = false := by
  decide

theorem collapseGo_false_space (x : Char) (rest : Str)
    (hx : isPySpace x = true) :
    collapseGo false (x :: rest) = ' ' :: collapseGo true rest := by
  rw [collapseGo, if_pos hx, if_neg (by decide)]

theorem collapseGo_true_space (x : Char) (rest : Str)
    (hx : isPySpace x = true) :
    collapseGo true (x :: rest) = collapseGo true rest := by
  rw [collapseGo, if_pos hx, if_pos rfl]

theorem collapseGo_nonspace (b : Bool) (x : Char) (rest : Str)
    (hx : isPySpace x = false) :
    collapseGo b (x :: rest) = x :: collapseGo false rest := by
  rw [collapseGo, if_neg (by simp [hx])]

theorem unescGo_zero_of_no_amp (l : Str) (h : ∀ c ∈ l, c ≠ '&') :
    unescGo 0 l = l := by
  induction l with
  | nil => rfl
  | cons c rest ih =>
    have hc : c ≠ '&' := h c (List.mem_cons_self _ _)
    simp only [unescGo]
    rw [if_neg (by simp [hc]),
      ih (fun x hx => h x (List.mem_cons_of_mem _ hx))]

theorem mem_collapseGo (l : Str) :
    ∀ b c, c ∈ collapseGo b l → c ∈ l ∨ c = ' ' := by
  induction l with
  | nil => intro b c hc; simp [collapseGo] at hc
  | cons x rest ih =>
    intro b c hc
    by_cases hx : isPySpace x = true
    · cases b with
      | true =>
        simp only [collapseGo, hx, if_true] at hc
        rcases ih true c hc with h1 | h1
        · exact Or.inl (List.mem_cons_of_mem _ h1)
        · exact Or.inr h1
      | false =>
        simp only [collapseGo, hx, if_true] at hc
        rcases List.mem_cons.mp hc with rfl | hc
        · exact Or.inr rfl
        · rcases ih true c hc with h1 | h1
          · exact Or.inl (List.mem_cons_of_mem _ h1)
          · exact Or.inr h1
    · simp only [collapseGo, hx] at hc
      rw [if_neg (by simp [hx])] at hc
      rcases List.mem_cons.mp hc with rfl | hc
      · exact Or.inl (List.mem_cons_self _ _)
      · rcases ih false c hc with h1 | h1
        · exact Or.inl (List.mem_cons_of_mem _ h1)
        · exact Or.inr h1

theorem mem_stripChars (l : Str) (c : Char) (hc : c ∈ stripChars l) : c ∈ l := by
  unfold stripChars at hc
  rw [List.mem_reverse] at hc
  have h1 := (List.dropWhile_sublist isPySpace).subset hc
  rw [List.mem_reverse] at h1
  exact (List.dropWhile_sublist isPySpace).subset h1

theorem head?_dropWhile_not (p : Char → Bool) (l : Str) :
    ∀ c, (l.dropWhile p).head? = some c → p c = false := by
  induction l with
  | nil => intro c hc; cases hc
  | cons x rest ih =>
    intro c hc
    rw [List.dropWhile_cons] at hc
    by_cases hx : p x = true
    · rw [if_pos hx] at hc
      exact ih c hc
    · rw [if_neg hx] at hc
      cases hc
      simpa using hx

theorem dropWhile_eq_self_of_head (p : Char → Bool) (l : Str)
    (h : ∀ c, l.head? = some c → p c = false) : l.dropWhile p = l := by
  cases l with
  | nil => rfl
  | cons x rest =>
    rw [List.dropWhile_cons, if_neg]
    simp [h x rfl]

theorem getLast?_cons_of_ne_nil (a : Char) (l : Str) (h : l ≠ []) :
    (a :: l).getLast? = l.getLast? := by
  cases l with
  | nil => exact absurd rfl h
  | cons b bs => exact List.getLast?_cons_cons

theorem getLast?_dropWhile_of_ne_nil (p : Char → Bool) (l : Str)
    (h : l.dropWhile p ≠ []) : (l.dropWhile p).getLast? = l.getLast? := by
  induction l with
  | nil => simp [List.dropWhile] at h
  | cons x rest ih =>
    rw [List.dropWhile_cons]
    by_cases hx : p x = true
    · rw [List.dropWhile_cons, if_pos hx] at h
      rw [if_pos hx, ih h, getLast?_cons_of_ne_nil]
      intro hrest
      rw [hrest] at h
      simp [List.dropWhile] at h
    · rw [if_neg hx]

theorem stripChars_head (l : Str) (c : Char)
    (hc : (stripChars l).head? = some c) : isPySpace c = false := by
  unfold stripChars at hc
  rw [List.head?_reverse] at hc
  have hne : ((l.dropWhile isPySpace).reverse.dropWhile isPySpace) ≠ [] := by
    intro hnil
    rw [hnil] at hc
    cases hc
  rw [getLast?_dropWhile_of_ne_nil _ _ hne, List.getLast?_reverse] at hc
  exact head?_dropWhile_not isPySpace l c hc

theorem stripChars_getLast (l : Str) (c : Char)
    (hc : (stripChars l).getLast? = some c) : isPySpace c = false := by
  unfold stripChars at hc
  rw [List.getLast?_reverse] at hc
  exact head?_dropWhile_not isPySpace _ c hc

theorem stripChars_eq_self (l : Str)
    (hh : ∀ c, l.head? = some c → isPySpace c = false)
    (hl : ∀ c, l.getLast? = some c → isPySpace c = false) :
    stripChars l = l := by
  unfold stripChars
  rw [dropWhile_eq_self_of_head isPySpace l hh,
    dropWhile_eq_self_of_head isPySpace l.reverse
      (fun c hc => hl c (by rwa [List.head?_reverse] at hc)),
    List.reverse_reverse]

theorem collapseGo_true_head (l : Str) :
    ∀ c, (collapseGo true l).head? = some c → isPySpace c = false := by
  induction l with
  | nil => intro c hc; cases hc
  | cons x rest ih =>
    intro c hc
    by_cases hx : isPySpace x = true
    · simp only [collapseGo, hx, if_true] at hc
      exact ih c hc
    · simp only [collapseGo, hx] at hc
      rw [if_neg (by simp [hx])] at hc
      cases hc
      simpa using hx

theorem collapseGo_getLast (l : Str) :
    ∀ b c, l.getLast? = some c → isPySpace c = false →
      ∃ c', (collapseGo b l).getLast? = some c' ∧ isPySpace c' = false := by
  induction l with
  | nil => intro b c hc _; cases hc
  | cons x rest ih =>
    intro b c hc hcns
    cases rest with
    | nil =>
      have hx : x = c := by simpa using hc
      subst hx
      refine ⟨x, ?_, hcns⟩
      rw [collapseGo_nonspace b x [] hcns]
      rfl
    | cons y ys =>
      have hc' : (y :: ys).getLast? = some c := by
        rwa [List.getLast?_cons_cons] at hc
      by_cases hx : isPySpace x = true
      · obtain ⟨c', hgl, hns⟩ := ih true c hc' hcns
        have hne : collapseGo true (y :: ys) ≠ [] := by
          intro hnil
          rw [hnil] at hgl
          cases hgl
        cases b with
        | true =>
          refine ⟨c', ?_, hns⟩
          rw [collapseGo_true_space x _ hx]
          exact hgl
        | false =>
          refine ⟨c', ?_, hns⟩
          rw [collapseGo_false_space x _ hx, getLast?_cons_of_ne_nil _ _ hne]
          exact hgl
      · obtain ⟨c', hgl, hns⟩ := ih false c hc' hcns
        have hne : collapseGo false (y :: ys) ≠ [] := by
          intro hnil
          rw [hnil] at hgl
          cases hgl
        refine ⟨c', ?_, hns⟩
        rw [collapseGo_nonspace b x _ (by simpa using hx),
          getLast?_cons_of_ne_nil _ _ hne]
        exact hgl

theorem wsCollapsed_tail (a : Char) (l : Str)
    (h : wsCollapsed (a :: l) = true) : wsCollapsed l = true := by
  cases l with
  | nil => rfl
  | cons b bs =>
    simp only [wsCollapsed, Bool.and_eq_true] at h
    exact h.2

theorem wsCollapsed_cons_nonspace (a : Char) (l : Str)
    (ha : isPySpace a = false) (h : wsCollapsed l = true) :
    wsCollapsed (a :: l) = true := by
  cases l with
  | nil => simp [wsCollapsed, ha]
  | cons b bs => simp [wsCollapsed, ha, h]

theorem wsCollapsed_cons_space (l : Str)
    (hh : ∀ c, l.head? = some c → isPySpace c = false)
    (h : wsCollapsed l = true) : wsCollapsed (' ' :: l) = true := by
  cases l with
  | nil => decide
  | cons b bs =>
    have hb := hh b rfl
    simp [wsCollapsed, hb, h]

theorem collapseGo_wsCollapsed (l : Str) :
    ∀ b, wsCollapsed (collapseGo b l) = true := by
  induction l with
  | nil => intro b; rfl
  | cons x rest ih =>
    intro b
    by_cases hx : isPySpace x = true
    · cases b with
      | true => simpa only [collapseGo, hx, if_true] using ih true
      | false =>
        simp only [collapseGo, hx, if_true]
        exact wsCollapsed_cons_space _ (collapseGo_true_head rest) (ih true)
    · simp only [collapseGo]
      rw [if_neg (by simp [hx])]
      exact wsCollapsed_cons_nonspace x _ (by simpa using hx) (ih false)

theorem wsCollapsed_fix (l : Str) (h : wsCollapsed l = true) :
    collapseGo false l = l ∧
      ((∀ c, l.head? = some c → isPySpace c = false) → collapseGo true l = l) := by
  induction l with
  | nil => exact ⟨rfl, fun _ => rfl⟩
  | cons a rest ih =>
    obtain ⟨ihf, iht⟩ := ih (wsCollapsed_tail a rest h)
    constructor
    · by_cases ha : isPySpace a = true
      · cases rest with
        | nil =>
          have ha' : a = ' ' := by
            simp only [wsCollapsed, ha] at h
            simpa using h
          subst ha'
          rfl
        | cons b bs =>
          have hcond : a = ' ' ∧ isPySpace b = false := by
            simp only [wsCollapsed, ha, Bool.and_eq_true] at h
            rcases h with ⟨h1, _⟩
            simpa using h1
          obtain ⟨rfl, hb⟩ := hcond
          rw [collapseGo_false_space ' ' _ ha, iht]
          intro c hc
          cases hc
          exact hb
      · rw [collapseGo_nonspace false a rest (by simpa using ha), ihf]
    · intro hh
      have ha := hh a rfl
      rw [collapseGo_nonspace true a rest ha, ihf]

theorem normalize_eq_collapse_of_clean (t : Str)
    (h : ∀ c ∈ t, isMdChar c = false ∧ isStrippedEmoji c = false ∧ c ≠ '&') :
    normalize_text t = collapseGo false (stripChars t) := by
  by_cases ht : t = []
  · subst ht; rfl
  · unfold normalize_text
    rw [if_neg ht]
    have hun : unescape t = t :=
      unescGo_zero_of_no_amp t (fun c hc => (h c hc).2.2)
    rw [show unescape t = t from hun]
    have hmem : ∀ c ∈ collapseGo false (stripChars t),
        isMdChar c = false ∧ isStrippedEmoji c = false := by
      intro c hc
      rcases mem_collapseGo (stripChars t) false c hc with hc' | rfl
      · have := h c (mem_stripChars t c hc')
        exact ⟨this.1, this.2.1⟩
      · exact ⟨by decide, by decide⟩
    rw [List.filter_eq_self.mpr
        (fun a ha => (by simp [(hmem a ha).1] : (!isMdChar a) = true)),
      List.filter_eq_self.mpr
        (fun a ha => (by simp [(hmem a ha).2] : (!isStrippedEmoji a) = true))]

/-- C7 (amended): on texts containing no HTML ampersand, none of the
stripped markdown characters and none of the stripped emoji,
`normalize_text` is idempotent.  (In general it is not: emoji or markdown
removal can create new doubled or leading whitespace, and HTML unescaping
can create new entities, each requiring another pass.) -/
theorem c7_normalize_idempotent_on_clean (t : Str)
    (h : ∀ c ∈ t, isMdChar c = false ∧ isStrippedEmoji c = false ∧ c ≠ '&') :
    normalize_text (normalize_text t) = normalize_text t := by
  have hN := normalize_eq_collapse_of_clean t h
  have hmem : ∀ c ∈ collapseGo false (stripChars t),
      isMdChar c = false ∧ isStrippedEmoji c = false ∧ c ≠ '&' := by
    intro c hc
    rcases mem_collapseGo (stripChars t) false c hc with hc' | rfl
    · exact h c (mem_stripChars t c hc')
    · exact ⟨by decide, by decide, by decide⟩
  rw [hN]
  by_cases hy0 : collapseGo false (stripChars t) = []
  · rw [hy0]; rfl
  · rw [normalize_eq_collapse_of_clean _ hmem]
    have hhead : ∀ c, (collapseGo false (stripChars t)).head? = some c →
        isPySpace c = false := by
      intro c hc
      rcases hB : stripChars t with _ | ⟨b0, bs⟩
      · rw [hB] at hc
        cases hc
      · have hb0 : isPySpace b0 = false :=
          stripChars_head t b0 (by rw [hB]; rfl)
        rw [hB] at hc
        simp only [collapseGo] at hc
        rw [if_neg (by simp [hb0])] at hc
        cases hc
        exact hb0
    have hlast : ∀ c, (collapseGo false (stripChars t)).getLast? = some c →
        isPySpace c = false := by
      intro c hc
      have hBne : stripChars t ≠ [] := by
        intro hB
        rw [hB] at hc
        cases hc
      obtain ⟨d, hd⟩ := Option.isSome_iff_exists.mp
        (List.getLast?_isSome.mpr hBne)
      obtain ⟨c', hc', hcns⟩ := collapseGo_getLast (stripChars t) false d hd
        (stripChars_getLast t d hd)
      rw [hc] at hc'
      cases hc'
      exact hcns
    rw [stripChars_eq_self _ hhead hlast,
      (wsCollapsed_fix _ (collapseGo_wsCollapsed (stripChars t) false)).1]

theorem c7_witness :
    (∀ c ∈ "hello  world".data,
      isMdChar c = false ∧ isStrippedEmoji c = false ∧ c ≠ '&') ∧
      normalize_text (normalize_text "hello  world".data) =
        normalize_text "hello  world".data :=
  ⟨by decide, c7_normalize_idempotent_on_clean "hello  world".data (by decide)⟩

/-- C7 counterexample: `normalize_text` is not idempotent.  On
`"a 🌟 b"` the emoji is removed after whitespace collapsing, leaving the
doubled space `"a  b"`; a second application collapses it to `"a b"`. -/
theorem c7_counterexample :
    normalize_text (normalize_text "a 🌟 b".data) ≠
      normalize_text "a 🌟 b".data := by
  decide

end QwenReverse
